import Mathlib

/-!
Verification of the reliable-delivery and packet-framing subsystem of a
UDP game-networking engine. The definitions below are a shallow embedding
of the C++ source: byte buffers become lists of naturals below 256,
machine integers become naturals with explicit truncation where the code
can overflow, and each C++ function is translated into an executable Lean
function. Definitions whose C++ implementation is present in the
repository are translated from that source; a few routines whose
implementation file is absent (only headers, callers or the design
document describe them) are modelled from the design document and say so
in their doc comment.
-/

namespace EngineNet

/-! ## BytePacker size encoding (from BytePacker.cpp) -/

/-- BytePacker.WriteSize from BytePacker.cpp: emits the size as 7-bit
groups, low group first, setting bit 0x80 on every byte that has a
successor. Returns the emitted bytes (the C++ function writes them into
the buffer and returns how many it wrote, which is the length of this
list). -/
def writeSizeBytes (size : Nat) : List Nat :=
  if h : size / 128 = 0 then
    [size % 128]
  else
    (size % 128 + 128) :: writeSizeBytes (size / 128)
termination_by size
decreasing_by
  exact Nat.div_lt_self (Nat.pos_of_ne_zero (fun hz => h (by simp [hz]))) (by norm_num)

/-- BytePacker.ReadSize from BytePacker.cpp: repeatedly reads one byte,
adds its low 7 bits to the running total (the source performs no shift),
and stops when the continuation bit 0x80 is clear. Returns the decoded
value together with the number of bytes consumed. The C++ do-while stops
early here when the buffer is exhausted; that case is unreachable when
reading back a WriteSize encoding. -/
def readSizeLoop : List Nat → Nat → Nat → Nat × Nat
  | [], total, bytesRead => (total, bytesRead)
  | b :: rest, total, bytesRead =>
    if b % 256 ≥ 128 then
      readSizeLoop rest (total + b % 128) (bytesRead + 1)
    else
      (total + b % 128, bytesRead + 1)

/-- BytePacker.ReadSize entry point: start with a zero total and no bytes
consumed. -/
def readSize (buf : List Nat) : Nat × Nat :=
  readSizeLoop buf 0 0

/-- Unfolding helper: the encoding of a value below 128 is one bare byte. -/
theorem writeSizeBytes_small (n : Nat) (h : n < 128) : writeSizeBytes n = [n % 128] := by
  rw [writeSizeBytes]
  simp [Nat.div_eq_of_lt h]

/-- Unfolding helper: the encoding of 128 is the two bytes 0x80 and 0x01. -/
theorem writeSizeBytes_128 : writeSizeBytes 128 = [128, 1] := by
  rw [writeSizeBytes]
  norm_num [writeSizeBytes_small]

/-- C10: the WriteSize/ReadSize round trip fails in the source. WriteSize
encodes 128 as the two bytes [0x80, 0x01], but ReadSize adds the 7-bit
groups without shifting them, so it returns the value 1 (while consuming
the correct two bytes) instead of 128. -/
theorem readSize_writeSize_128_returns_one :
    readSize (writeSizeBytes 128) = (1, 2) ∧ writeSizeBytes 128 = [128, 1] := by
  constructor
  · rw [writeSizeBytes_128]
    rfl
  · exact writeSizeBytes_128

/-! ## Connection flush readiness (from NetConnection.cpp and MathUtils.cpp)

The C++ code compares float quantities; the embedding uses rationals,
which model the comparisons exactly at the representable inputs used
below (no rounding is involved in a comparison or a two-way max). -/

/-- MaxFloat from MathUtils.cpp: the two-argument maximum, written with
the same strict comparison as the source. -/
def maxFloat (a b : ℚ) : ℚ :=
  if a > b then a else b

/-- NetConnection.IsReadyToFlush from NetConnection.cpp: the connection is
ready to flush when the elapsed time on the send timer is strictly
greater than the larger of the session send interval and the connection
send interval. -/
def isReadyToFlush (elapsed sessionTime timeBetweenSends : ℚ) : Bool :=
  decide (elapsed > maxFloat sessionTime timeBetweenSends)

/-- C9 counterexample: the claim states IsReadyToFlush returns true when
the elapsed time equals max(session interval, connection interval), but
the source uses a strict comparison: with both intervals 1 and elapsed
time 1 it returns false. -/
theorem isReadyToFlush_not_ge_spec :
    ¬ (isReadyToFlush 1 1 1 = true ↔ (1 : ℚ) ≥ maxFloat 1 1) := by
  simp [isReadyToFlush, maxFloat]

/-- C9 (amended): IsReadyToFlush returns true exactly when the elapsed
time since the last send is strictly greater than the maximum of the
session tick interval and the connection tick interval; at exact equality
it returns false. -/
theorem isReadyToFlush_iff_gt (elapsed sessionTime timeBetweenSends : ℚ) :
    isReadyToFlush elapsed sessionTime timeBetweenSends = true ↔
      elapsed > maxFloat sessionTime timeBetweenSends := by
  simp [isReadyToFlush]

/-! ## Packet tracker (from NetConnection.hpp) -/

/-- MAX_RELIABLES_PER_PACKET from NetConnection.hpp. -/
def MAX_RELIABLES_PER_PACKET : Nat := 32

/-- INVALID_PACKET_ACK from NetPacket.hpp (0xffff). -/
def INVALID_PACKET_ACK : Nat := 0xffff

/-- PacketTracker_t from NetConnection.hpp. The C struct stores a
32-entry array together with a count of its meaningful prefix; the
embedding stores that meaningful prefix as a list, whose length is the
count. -/
structure PacketTracker where
  packetAck : Nat := INVALID_PACKET_ACK
  timeSent : ℚ := -1
  sentReliableIDs : List Nat := []
deriving DecidableEq

/-- PacketTracker_t.AddReliableID from NetConnection.hpp: refuse when the
count already equals MAX_RELIABLES_PER_PACKET, otherwise append the id
and report success. -/
def PacketTracker.addReliableID (t : PacketTracker) (reliableID : Nat) :
    PacketTracker × Bool :=
  if t.sentReliableIDs.length = MAX_RELIABLES_PER_PACKET then
    (t, false)
  else
    ({ t with sentReliableIDs := t.sentReliableIDs ++ [reliableID] }, true)

/-- PacketTracker_t.Clear from NetConnection.hpp: reset the ack to the
invalid sentinel, the send time to -1, and the recorded-reliable count to
zero. -/
def PacketTracker.clear (_t : PacketTracker) : PacketTracker :=
  { packetAck := INVALID_PACKET_ACK, timeSent := -1, sentReliableIDs := [] }

/-- Fold AddReliableID over a list of reliable ids, also reporting
whether every individual call succeeded. -/
def PacketTracker.addAll (t : PacketTracker) : List Nat → PacketTracker × Bool
  | [] => (t, true)
  | id :: rest =>
    let step := t.addReliableID id
    let next := step.1.addAll rest
    (next.1, step.2 && next.2)

/-- Helper for C5: adding ids one at a time succeeds while there is room,
and simply appends. -/
theorem PacketTracker.addAll_of_room (ids : List Nat) :
    ∀ t : PacketTracker, t.sentReliableIDs.length + ids.length ≤ MAX_RELIABLES_PER_PACKET →
      t.addAll ids = ({ t with sentReliableIDs := t.sentReliableIDs ++ ids }, true) := by
  induction ids with
  | nil => intro t _; simp [PacketTracker.addAll]
  | cons id rest ih =>
    intro t hlen
    have hne : t.sentReliableIDs.length ≠ MAX_RELIABLES_PER_PACKET := by
      simp only [List.length_cons] at hlen
      omega
    have hrest :
        ({ t with sentReliableIDs := t.sentReliableIDs ++ [id] } :
            PacketTracker).sentReliableIDs.length + rest.length ≤
          MAX_RELIABLES_PER_PACKET := by
      simp only [List.length_append, List.length_cons, List.length_nil] at hlen ⊢
      omega
    have hstep := ih _ hrest
    simp [PacketTracker.addAll, PacketTracker.addReliableID, hne, hstep]

/-- C5: from a freshly cleared tracker, the first 32 AddReliableID calls
all succeed and record exactly the given ids in order; and any call made
when 32 ids are already recorded returns false and leaves the tracker
unchanged. -/
theorem addReliableID_capacity (t : PacketTracker) (ids : List Nat) (id : Nat) :
    (ids.length ≤ 32 →
      (t.clear).addAll ids =
        ({ packetAck := INVALID_PACKET_ACK, timeSent := -1, sentReliableIDs := ids }, true)) ∧
    (t.sentReliableIDs.length = 32 → t.addReliableID id = (t, false)) := by
  constructor
  · intro hlen
    have h := PacketTracker.addAll_of_room ids (t.clear)
      (by simpa [PacketTracker.clear, MAX_RELIABLES_PER_PACKET] using hlen)
    simpa [PacketTracker.clear] using h
  · intro hfull
    simp [PacketTracker.addReliableID, hfull, MAX_RELIABLES_PER_PACKET]

/-- C5 witness: three adds into a cleared tracker succeed and record the
ids; an add into a tracker already holding 32 ids fails and changes
nothing. -/
theorem addReliableID_capacity_witness :
    (PacketTracker.clear { } : PacketTracker).addAll [4, 5, 6] =
        ({ packetAck := INVALID_PACKET_ACK, timeSent := -1, sentReliableIDs := [4, 5, 6] }, true) ∧
      PacketTracker.addReliableID
          { packetAck := 3, timeSent := 0, sentReliableIDs := List.replicate 32 9 } 7 =
        ({ packetAck := 3, timeSent := 0, sentReliableIDs := List.replicate 32 9 }, false) :=
  ⟨(addReliableID_capacity { } [4, 5, 6] 7).1 (by decide),
   (addReliableID_capacity
      { packetAck := 3, timeSent := 0, sentReliableIDs := List.replicate 32 9 } [] 7).2
      (by simp)⟩

/-! ## Packet packing and the MTU bound (from NetConnection.cpp and NetPacket.hpp) -/

/-- PACKET_MTU from NetPacket.hpp: 1500 (Ethernet MTU) - 40 - 8. -/
def PACKET_MTU : Nat := 1500 - 40 - 8

/-- The framed size of one message as computed in
NetConnection.FlushMessages: 2 bytes for the message length field, 1 byte
for the message definition index, then the payload bytes. A message is
represented by its payload byte count. -/
def msgFramedSize (payload : Nat) : Nat := 2 + 1 + payload

/-- Bytes occupied in a packet holding the given messages:
FlushMessages advances the write head 2 bytes for the header it writes
last, then each written message occupies its framed size. -/
def packetBytes (msgs : List Nat) : Nat :=
  2 + (msgs.map msgFramedSize).sum

/-- One iteration of the FlushMessages loop from NetConnection.cpp, over
the pair (finished packets, messages in the current packet). If the
message fits in the remaining writable bytes of the current packet it is
written there; otherwise the current packet is finished (header written,
handed to the session), the packet is reset, and the message is written
into the fresh packet.

Modelled from the spec: the NetPacket.WriteMessage implementation is not
under src (NetPacket.hpp declares it); per the design document it writes
the message only when CanFitMessage holds, that is when the remaining
writable bytes are at least the framed size, so a message too large for
even a fresh packet is not written. -/
def flushStep (acc : List (List Nat) × List Nat) (payload : Nat) :
    List (List Nat) × List Nat :=
  let done := acc.1
  let cur := acc.2
  if msgFramedSize payload ≤ PACKET_MTU - packetBytes cur then
    (done, cur ++ [payload])
  else
    if msgFramedSize payload ≤ PACKET_MTU - packetBytes [] then
      (done ++ [cur], [payload])
    else
      (done ++ [cur], [])

/-- NetConnection.FlushMessages packing from NetConnection.cpp: run the
loop over every queued message, then the final packet is also handed
off. Returns every packet built, each as the list of payload sizes it
carries. -/
def flushPackets (payloads : List Nat) : List (List Nat) :=
  let acc := payloads.foldl flushStep ([], [])
  acc.1 ++ [acc.2]

/-- Helper for C4: the packing loop keeps every finished packet and the
current packet within the MTU. -/
theorem flushStep_invariant (payloads : List Nat) :
    ∀ acc : List (List Nat) × List Nat,
      (∀ pkt ∈ acc.1, packetBytes pkt ≤ PACKET_MTU) →
      packetBytes acc.2 ≤ PACKET_MTU →
      (∀ pkt ∈ (payloads.foldl flushStep acc).1, packetBytes pkt ≤ PACKET_MTU) ∧
        packetBytes (payloads.foldl flushStep acc).2 ≤ PACKET_MTU := by
  have hmtu : PACKET_MTU = 1452 := rfl
  induction payloads with
  | nil => intro acc hdone hcur; exact ⟨hdone, hcur⟩
  | cons p rest ih =>
    intro acc hdone hcur
    simp only [List.foldl_cons]
    apply ih
    · intro pkt hmem
      by_cases h1 : msgFramedSize p ≤ PACKET_MTU - packetBytes acc.2
      · simp only [flushStep, h1, if_true] at hmem
        exact hdone pkt hmem
      · by_cases h2 : msgFramedSize p ≤ PACKET_MTU - packetBytes []
        all_goals
          simp only [flushStep, h1, h2, if_true, if_false, List.mem_append,
            List.mem_singleton] at hmem
        all_goals
          rcases hmem with h | h
          · exact hdone pkt h
          · exact h ▸ hcur
    · by_cases h1 : msgFramedSize p ≤ PACKET_MTU - packetBytes acc.2
      · simp only [flushStep, h1, if_true]
        simp only [packetBytes, List.map_append, List.sum_append, List.map_cons,
          List.map_nil, List.sum_cons, List.sum_nil] at h1 hcur ⊢
        omega
      · by_cases h2 : msgFramedSize p ≤ PACKET_MTU - packetBytes []
        · simp only [flushStep, h1, h2, if_true, if_false]
          simp only [packetBytes, List.map_cons, List.map_nil, List.sum_cons,
            List.sum_nil, hmtu] at h2 ⊢
          omega
        · simp only [flushStep, h1, h2, if_false]
          simp [packetBytes, hmtu]

/-- C4: every packet constructed by FlushMessages stays within the packet
MTU: the header bytes plus the sum over its messages of framed size
(2-byte length, 1-byte index, payload) never exceed 1452. -/
theorem flushPackets_within_mtu (payloads : List Nat) (pkt : List Nat)
    (hmem : pkt ∈ flushPackets payloads) :
    packetBytes pkt ≤ 1452 := by
  have hinv := flushStep_invariant payloads ([], [])
    (by intro pkt h; simp at h) (by simp [packetBytes, PACKET_MTU])
  unfold flushPackets at hmem
  simp only [List.mem_append, List.mem_singleton] at hmem
  have : packetBytes pkt ≤ PACKET_MTU := by
    rcases hmem with h | h
    · exact hinv.1 pkt h
    · exact h ▸ hinv.2
  simpa [PACKET_MTU] using this

/-- C4 witness: a queue whose messages overflow one packet is split into
two packets; the first built packet is a member of the flush output and
respects the MTU bound. -/
theorem flushPackets_within_mtu_witness :
    [10, 1000] ∈ flushPackets [10, 1000, 1000] ∧ packetBytes [10, 1000] ≤ 1452 :=
  ⟨by decide, flushPackets_within_mtu [10, 1000, 1000] [10, 1000] (by decide)⟩

/-! ## Wire packet codec (PacketHeader_t from NetPacket.hpp) -/

/-- PacketHeader_t from NetPacket.hpp: sender connection index (u8),
packet ack (u16), received-history bitfield (u16), highest received ack
(u16), total message count (u8). -/
structure PacketHeader where
  senderConnectionIndex : Nat
  packetAck : Nat
  receivedHistory : Nat
  highestReceivedAck : Nat
  totalMessageCount : Nat
deriving DecidableEq

/-- A header whose fields fit their wire widths. -/
def PacketHeader.valid (h : PacketHeader) : Prop :=
  h.senderConnectionIndex < 256 ∧ h.packetAck < 65536 ∧
    h.receivedHistory < 65536 ∧ h.highestReceivedAck < 65536 ∧
    h.totalMessageCount < 256

instance (h : PacketHeader) : Decidable h.valid := by
  unfold PacketHeader.valid
  infer_instance

/-- A 16-bit value as two bytes, low byte first. -/
def writeU16LE (v : Nat) : List Nat :=
  [v % 256, v / 256 % 256]

/-- Two little-endian bytes back to a 16-bit value. -/
def readU16LE (lo hi : Nat) : Nat :=
  lo + 256 * hi

/-- Modelled from the spec: the NetPacket.WriteHeader implementation is
not under src (NetPacket.hpp declares it at lines 62-63); the design
document fixes the 8-byte layout as u8 senderIndex, u16 packetAck,
u16 receivedHistoryBitfield, u16 highestReceivedAck, u8 messageCount,
with 16-bit fields in the session byte order (little-endian here). -/
def writeHeader (h : PacketHeader) : List Nat :=
  [h.senderConnectionIndex % 256] ++ writeU16LE h.packetAck ++
    writeU16LE h.receivedHistory ++ writeU16LE h.highestReceivedAck ++
    [h.totalMessageCount % 256]

/-- Modelled from the spec: the NetPacket.ReadHeader implementation is
not under src; it reads the same 8 bytes back symmetrically, failing
when fewer than 8 bytes remain. -/
def readHeader (bytes : List Nat) : Option PacketHeader :=
  match bytes with
  | b0 :: b1 :: b2 :: b3 :: b4 :: b5 :: b6 :: b7 :: _ =>
    some { senderConnectionIndex := b0, packetAck := readU16LE b1 b2,
           receivedHistory := readU16LE b3 b4,
           highestReceivedAck := readU16LE b5 b6, totalMessageCount := b7 }
  | _ => none

/-- C7: serializing a valid packet header to its 8 wire bytes and
deserializing them reproduces every field, including a packet ack that
has wrapped around to 0 or sits at 65535. -/
theorem readHeader_writeHeader (h : PacketHeader) (hv : h.valid) :
    readHeader (writeHeader h) = some h := by
  obtain ⟨h1, h2, h3, h4, h5⟩ := hv
  simp only [writeHeader, writeU16LE, List.cons_append, List.nil_append,
    readHeader, readU16LE, Option.some.injEq]
  cases h
  simp only [PacketHeader.mk.injEq]
  refine ⟨?_, ?_, ?_, ?_, ?_⟩ <;> simp_all <;> omega

/-- C7 witness: a header carrying the largest 16-bit ack (the value just
before wrapping to 0) round-trips exactly. -/
theorem readHeader_writeHeader_witness :
    (PacketHeader.mk 3 65535 0xA5A5 65534 7).valid ∧
      readHeader (writeHeader (PacketHeader.mk 3 65535 0xA5A5 65534 7)) =
        some (PacketHeader.mk 3 65535 0xA5A5 65534 7) :=
  ⟨by decide, readHeader_writeHeader (PacketHeader.mk 3 65535 0xA5A5 65534 7) (by decide)⟩

/-! ## Message framing and packet decode (NetPacket.hpp, BytePacker.cpp) -/

/-- Modelled from the spec: the NetPacket.ReadMessage implementation is
not under src (NetPacket.hpp declares it at line 67). Per the design
document a message is framed as a 2-byte length, a 1-byte message-type
index, and length - 1 payload bytes; the underlying BytePacker.ReadBytes
never reads past the written region, so a declared length larger than
the remaining bytes is a decode failure, reported as an unsuccessful
result rather than a crash. Returns the (type index, payload) pair and
the unconsumed rest of the buffer on success. -/
def readMessage (buf : List Nat) : Option ((Nat × List Nat) × List Nat) :=
  match buf with
  | lo :: hi :: tail =>
    let len := readU16LE lo hi
    if len = 0 then
      none
    else if tail.length < len then
      none
    else
      some ((tail.headD 0, (tail.take len).drop 1), tail.drop len)
  | _ => none

/-- Read the declared number of messages in sequence, failing as a whole
if any single read fails; this is the receive loop that walks a packet
after its header. -/
def readMessages : Nat → List Nat → Option (List (Nat × List Nat))
  | 0, _ => some []
  | n + 1, buf =>
    match readMessage buf with
    | none => none
    | some (m, rest) => (readMessages n rest).map (m :: ·)

/-- Fuel-driven count of the complete framed messages at the front of a
buffer. -/
def framedCountAux : Nat → List Nat → Nat
  | 0, _ => 0
  | fuel + 1, buf =>
    match readMessage buf with
    | none => 0
    | some (_, rest) => framedCountAux fuel rest + 1

/-- The number of complete framed messages at the front of a buffer
(the buffer length is always enough fuel, as each message consumes at
least one byte). -/
def framedCount (buf : List Nat) : Nat :=
  framedCountAux buf.length buf

/-- A successful message read strictly shrinks the buffer. -/
theorem readMessage_shrinks (buf : List Nat) (m : Nat × List Nat) (rest : List Nat)
    (h : readMessage buf = some (m, rest)) : rest.length < buf.length := by
  unfold readMessage at h
  match buf with
  | [] => exact absurd h (by simp)
  | [lo] => exact absurd h (by simp)
  | lo :: hi :: tail =>
    simp only at h
    split at h
    · exact absurd h (by simp)
    · split at h
      · exact absurd h (by simp)
      · simp only [Option.some.injEq, Prod.mk.injEq] at h
        have := h.2
        subst this
        simp only [List.length_drop, List.length_cons]
        omega

/-- The framed count of the empty buffer is zero at every fuel. -/
theorem framedCountAux_nil (fuel : Nat) : framedCountAux fuel [] = 0 := by
  cases fuel <;> simp [framedCountAux, readMessage]

/-- Any fuel at least the buffer length computes the same framed count. -/
theorem framedCountAux_eq (fuel : Nat) :
    ∀ buf : List Nat, buf.length ≤ fuel → framedCountAux fuel buf = framedCount buf := by
  induction fuel using Nat.strong_induction_on with
  | _ fuel ih =>
    intro buf hlen
    rcases hbuf : buf.length with _ | n
    · have hnil : buf = [] := List.length_eq_zero.mp hbuf
      subst hnil
      rw [framedCountAux_nil, framedCount, List.length_nil, framedCountAux_nil]
    · obtain ⟨f, rfl⟩ : ∃ f, fuel = f + 1 := ⟨fuel - 1, by omega⟩
      rw [framedCount, hbuf]
      rcases hread : readMessage buf with _ | ⟨m, rest⟩
      · simp [framedCountAux, hread]
      · have hlt := readMessage_shrinks buf m rest hread
        rw [hbuf] at hlt
        have h1 : framedCountAux f rest = framedCount rest :=
          ih f (Nat.lt_succ_self f) rest (by omega)
        have h2 : framedCountAux n rest = framedCount rest :=
          ih n (by omega) rest (by omega)
        simp [framedCountAux, hread, h1, h2]

/-- A successful message read lowers the framed count by exactly one. -/
theorem framedCount_succ (buf : List Nat) (m : Nat × List Nat) (rest : List Nat)
    (hread : readMessage buf = some (m, rest)) :
    framedCount buf = framedCount rest + 1 := by
  have hlt := readMessage_shrinks buf m rest hread
  obtain ⟨n, hbuf⟩ : ∃ n, buf.length = n + 1 := ⟨buf.length - 1, by omega⟩
  rw [framedCount, hbuf]
  have h2 : framedCountAux n rest = framedCount rest :=
    framedCountAux_eq n rest (by omega)
  simp [framedCountAux, hread, h2]

/-- Reading more messages than are framed in the buffer fails as a
whole. -/
theorem readMessages_none (count : Nat) :
    ∀ buf : List Nat, framedCount buf < count → readMessages count buf = none := by
  induction count with
  | zero => intro buf h; omega
  | succ count ih =>
    intro buf hcount
    rcases hread : readMessage buf with _ | ⟨m, rest⟩
    · simp [readMessages, hread]
    · have hstep := framedCount_succ buf m rest hread
      have hrest : framedCount rest < count := by omega
      simp [readMessages, hread, ih rest hrest]

/-- Decode one received packet: read the 8-byte header, then read exactly
the declared number of messages from the remaining bytes; any message
read failure fails the whole packet. -/
def decodePacket (buf : List Nat) : Option (PacketHeader × List (Nat × List Nat)) :=
  match readHeader buf with
  | none => none
  | some h => (readMessages h.totalMessageCount (buf.drop 8)).map (h, ·)

/-- The messages a received packet hands to the application: none when
the decode fails (the packet is dropped entirely). -/
def deliveredMessages (buf : List Nat) : List (Nat × List Nat) :=
  match decodePacket buf with
  | none => []
  | some (_, msgs) => msgs

/-- The wire header round-trips in front of any packet body. -/
theorem readHeader_writeHeader_append (h : PacketHeader) (hv : h.valid)
    (rest : List Nat) : readHeader (writeHeader h ++ rest) = some h := by
  obtain ⟨h1, h2, h3, h4, h5⟩ := hv
  simp only [writeHeader, writeU16LE, List.cons_append, List.nil_append,
    readHeader, readU16LE, Option.some.injEq]
  cases h
  simp only [PacketHeader.mk.injEq]
  refine ⟨?_, ?_, ?_, ?_, ?_⟩ <;> simp_all <;> omega

/-- The wire header occupies exactly 8 bytes. -/
theorem writeHeader_length (h : PacketHeader) : (writeHeader h).length = 8 := by
  simp [writeHeader, writeU16LE]

/-- C8: a received packet whose declared message count exceeds the
complete framed messages in its body fails to decode as a whole - the
result is a failure and zero messages are handed to the application
(every model read is bounds-checked, mirroring the clamping
BytePacker.ReadBytes, so no read leaves the buffer). -/
theorem decodePacket_truncated (hdr : PacketHeader) (body : List Nat)
    (hv : hdr.valid) (hcount : framedCount body < hdr.totalMessageCount) :
    decodePacket (writeHeader hdr ++ body) = none ∧
      deliveredMessages (writeHeader hdr ++ body) = [] := by
  have hdrop : (writeHeader hdr ++ body).drop 8 = body := by
    rw [← writeHeader_length hdr, List.drop_left]
  have hdecode : decodePacket (writeHeader hdr ++ body) = none := by
    rw [decodePacket, readHeader_writeHeader_append hdr hv body, hdrop]
    simp [readMessages_none hdr.totalMessageCount body hcount]
  exact ⟨hdecode, by rw [deliveredMessages, hdecode]⟩

/-- C8 witness: a packet declaring 3 messages over a body framing only 2
complete messages decodes to a failure with nothing delivered. -/
theorem decodePacket_truncated_witness :
    (PacketHeader.mk 0 0 0 0 3).valid ∧
      framedCount [2, 0, 7, 9, 2, 0, 7, 9] < 3 ∧
      decodePacket (writeHeader (PacketHeader.mk 0 0 0 0 3) ++
        [2, 0, 7, 9, 2, 0, 7, 9]) = none ∧
      deliveredMessages (writeHeader (PacketHeader.mk 0 0 0 0 3) ++
        [2, 0, 7, 9, 2, 0, 7, 9]) = [] :=
  ⟨by decide, by decide,
   (decodePacket_truncated (PacketHeader.mk 0 0 0 0 3) [2, 0, 7, 9, 2, 0, 7, 9]
      (by decide) (by decide)).1,
   (decodePacket_truncated (PacketHeader.mk 0 0 0 0 3) [2, 0, 7, 9, 2, 0, 7, 9]
      (by decide) (by decide)).2⟩

/-! ## Sequence channels (NetSequenceChannel, declared in NetConnection.hpp) -/

/-- Modelled from the spec: the NetSequenceChannel source is not under
src (NetConnection.hpp holds the 32-channel table and declares the
in-order entry points). Per the design document a channel holds the next
expected sequence number, starting at 0, and messages that arrive ahead
of it are held until the gap is filled. A message is represented by its
sequence number. -/
structure SeqChannel where
  nextExpectedSequence : Nat
  buffered : List Nat
deriving DecidableEq

/-- Modelled from the spec: after an in-order delivery advances the
channel, buffered messages whose turn has come are delivered in
sequence. The fuel is the buffer length, enough because every delivery
removes one buffered message. -/
def drainChannel : Nat → SeqChannel → SeqChannel × List Nat
  | 0, ch => (ch, [])
  | fuel + 1, ch =>
    if ch.nextExpectedSequence ∈ ch.buffered then
      let after : SeqChannel :=
        ⟨ch.nextExpectedSequence + 1, ch.buffered.erase ch.nextExpectedSequence⟩
      let next := drainChannel fuel after
      (next.1, ch.nextExpectedSequence :: next.2)
    else
      (ch, [])

/-- Modelled from the spec: receiving one message on a channel
(IsNextMessageInSequence / QueueInOrderMessage, whose implementation is
not under src). A sequence number below the expected one is a duplicate
and is discarded; above it, the message is held in the buffer; equal to
it, the message is delivered, the channel advances, and ready buffered
messages follow. Returns the new channel state and the messages
delivered to the application by this arrival. -/
def processMessage (ch : SeqChannel) (s : Nat) : SeqChannel × List Nat :=
  if s < ch.nextExpectedSequence then
    (ch, [])
  else if ch.nextExpectedSequence < s then
    ({ ch with buffered := s :: ch.buffered }, [])
  else
    let after : SeqChannel := ⟨ch.nextExpectedSequence + 1, ch.buffered⟩
    let next := drainChannel after.buffered.length after
    (next.1, s :: next.2)

/-- Feed a list of arrivals through a channel, accumulating the messages
delivered to the application. -/
def runChannelFrom (ch : SeqChannel) (delivered : List Nat) :
    List Nat → SeqChannel × List Nat
  | [] => (ch, delivered)
  | s :: rest =>
    let step := processMessage ch s
    runChannelFrom step.1 (delivered ++ step.2) rest

/-- Feed a list of arrivals through a fresh channel. -/
def runChannel (arrivals : List Nat) : SeqChannel × List Nat :=
  runChannelFrom ⟨0, []⟩ [] arrivals

/-- What one drain pass does: it delivers the consecutive run starting at
the expected sequence number, all taken from the buffer, never adds to
the buffer, and anything it removes from the buffer it has delivered. -/
theorem drainChannel_spec (fuel : Nat) :
    ∀ ch : SeqChannel,
      ∃ k, (drainChannel fuel ch).1.nextExpectedSequence = ch.nextExpectedSequence + k ∧
        (drainChannel fuel ch).2 = List.range' ch.nextExpectedSequence k ∧
        (∀ x ∈ (drainChannel fuel ch).1.buffered, x ∈ ch.buffered) ∧
        (∀ x ∈ (drainChannel fuel ch).2, x ∈ ch.buffered) ∧
        (∀ x ∈ ch.buffered,
          x ∈ (drainChannel fuel ch).1.buffered ∨
            x < (drainChannel fuel ch).1.nextExpectedSequence) := by
  induction fuel with
  | zero =>
    intro ch
    exact ⟨0, by simp [drainChannel], by simp [drainChannel],
      fun x hx => by simpa [drainChannel] using hx,
      fun x hx => by simp [drainChannel] at hx,
      fun x hx => by simp only [drainChannel]; exact Or.inl hx⟩
  | succ fuel ih =>
    intro ch
    by_cases hin : ch.nextExpectedSequence ∈ ch.buffered
    · obtain ⟨k, hnext, hds, hsub, hdel, hcover⟩ :=
        ih ⟨ch.nextExpectedSequence + 1, ch.buffered.erase ch.nextExpectedSequence⟩
      refine ⟨k + 1, ?_, ?_, ?_, ?_, ?_⟩ <;>
        simp only [drainChannel, hin, if_true]
      · simp only [hnext]
        omega
      · rw [List.range'_succ, hds]
      · intro x hx
        exact List.erase_subset _ _ (hsub x hx)
      · intro x hx
        rcases List.mem_cons.mp hx with h | h
        · exact h ▸ hin
        · exact List.erase_subset _ _ (hdel x h)
      · intro x hx
        by_cases hxe : x = ch.nextExpectedSequence
        · right
          simp only [hnext]
          omega
        · have hxin : x ∈ ch.buffered.erase ch.nextExpectedSequence :=
            (List.mem_erase_of_ne hxe).mpr hx
          exact hcover x hxin
    · exact ⟨0, by simp [drainChannel, hin], by simp [drainChannel, hin],
        fun x hx => by simpa [drainChannel, hin] using hx,
        fun x hx => by simp [drainChannel, hin] at hx,
        fun x hx => by simp only [drainChannel, hin, if_false]; exact Or.inl hx⟩

/-- With fuel covering the whole buffer, a drain pass runs to
completion: afterwards the expected sequence number is not buffered. -/
theorem drainChannel_complete (fuel : Nat) :
    ∀ ch : SeqChannel, ch.buffered.length ≤ fuel →
      (drainChannel fuel ch).1.nextExpectedSequence ∉
        (drainChannel fuel ch).1.buffered := by
  induction fuel with
  | zero =>
    intro ch hlen
    have hnil : ch.buffered = [] := List.length_eq_zero.mp (Nat.le_zero.mp hlen)
    simp [drainChannel, hnil]
  | succ fuel ih =>
    intro ch hlen
    by_cases hin : ch.nextExpectedSequence ∈ ch.buffered
    · have hlen2 : (ch.buffered.erase ch.nextExpectedSequence).length ≤ fuel := by
        rw [List.length_erase_of_mem hin]
        omega
      have := ih ⟨ch.nextExpectedSequence + 1, ch.buffered.erase ch.nextExpectedSequence⟩ hlen2
      simpa only [drainChannel, hin, if_true] using this
    · simpa only [drainChannel, hin, if_false] using hin

/-- The numbers 0..n-1 followed by the run n..n+k-1 are the numbers
0..n+k-1. -/
theorem range_append_range' :
    ∀ (k n : Nat), List.range n ++ List.range' n k = List.range (n + k) := by
  intro k
  induction k with
  | zero => intro n; simp
  | succ k ih =>
    intro n
    rw [List.range'_succ]
    have hsplit : List.range n ++ n :: List.range' (n + 1) k =
        (List.range n ++ [n]) ++ List.range' (n + 1) k := by
      simp
    rw [hsplit, ← List.range_succ, ih (n + 1)]
    congr 1
    omega

/-- The channel invariant tying the processed arrivals, the channel state
and the delivered list together: the application has received exactly
0,1,...,next-1 in order; the expected number is never still buffered;
every processed arrival was delivered or is buffered; the buffer holds
only processed arrivals; and every delivered number was an arrival. -/
def ChannelInv (processed : List Nat) (ch : SeqChannel) (delivered : List Nat) : Prop :=
  delivered = List.range ch.nextExpectedSequence ∧
  ch.nextExpectedSequence ∉ ch.buffered ∧
  (∀ s ∈ processed, s < ch.nextExpectedSequence ∨ s ∈ ch.buffered) ∧
  (∀ s ∈ ch.buffered, s ∈ processed) ∧
  (∀ s, s < ch.nextExpectedSequence → s ∈ processed)

/-- Processing one arrival preserves the channel invariant. -/
theorem processMessage_inv (processed : List Nat) (ch : SeqChannel)
    (delivered : List Nat) (s : Nat) (h : ChannelInv processed ch delivered) :
    ChannelInv (processed ++ [s]) (processMessage ch s).1
      (delivered ++ (processMessage ch s).2) := by
  obtain ⟨hdel, hnotbuf, hproc, hbufproc, hdelproc⟩ := h
  by_cases hlt : s < ch.nextExpectedSequence
  · have hpm : processMessage ch s = (ch, []) := by
      simp [processMessage, hlt]
    rw [hpm]
    refine ⟨by simpa using hdel, hnotbuf, ?_, ?_, ?_⟩
    · intro x hx
      rcases List.mem_append.mp hx with hx | hx
      · exact hproc x hx
      · simp only [List.mem_singleton] at hx
        subst hx
        exact Or.inl hlt
    · intro x hx
      exact List.mem_append_left _ (hbufproc x hx)
    · intro x hx
      exact List.mem_append_left _ (hdelproc x hx)
  · by_cases hgt : ch.nextExpectedSequence < s
    · have hpm : processMessage ch s = ({ ch with buffered := s :: ch.buffered }, []) := by
        simp [processMessage, hlt, hgt]
      rw [hpm]
      refine ⟨by simpa using hdel, ?_, ?_, ?_, ?_⟩
      · simp only [List.mem_cons, not_or]
        exact ⟨by omega, hnotbuf⟩
      · intro x hx
        rcases List.mem_append.mp hx with hx | hx
        · rcases hproc x hx with h | h
          · exact Or.inl h
          · exact Or.inr (List.mem_cons_of_mem _ h)
        · simp only [List.mem_singleton] at hx
          subst hx
          exact Or.inr (List.mem_cons_self _ _)
      · intro x hx
        simp only [List.mem_cons] at hx
        rcases hx with hx | hx
        · subst hx
          exact List.mem_append_right _ (List.mem_singleton_self _)
        · exact List.mem_append_left _ (hbufproc x hx)
      · intro x hx
        exact List.mem_append_left _ (hdelproc x hx)
    · have heq : s = ch.nextExpectedSequence := by omega
      obtain ⟨k, hnext, hds, hsub, hdrained, hcover⟩ :=
        drainChannel_spec ch.buffered.length ⟨ch.nextExpectedSequence + 1, ch.buffered⟩
      have hcompl :=
        drainChannel_complete ch.buffered.length
          ⟨ch.nextExpectedSequence + 1, ch.buffered⟩ (le_refl _)
      have hpm : processMessage ch s =
          ((drainChannel ch.buffered.length
              ⟨ch.nextExpectedSequence + 1, ch.buffered⟩).1,
            s :: (drainChannel ch.buffered.length
              ⟨ch.nextExpectedSequence + 1, ch.buffered⟩).2) := by
        simp [processMessage, hlt, hgt]
      rw [hpm]
      simp only at hnext hds hsub hdrained hcover hcompl
      refine ⟨?_, hcompl, ?_, ?_, ?_⟩
      · rw [hdel, hnext, hds, heq]
        have hcons : ch.nextExpectedSequence ::
            List.range' (ch.nextExpectedSequence + 1) k =
            List.range' ch.nextExpectedSequence (k + 1) :=
          (List.range'_succ _ _ _).symm
        rw [hcons, range_append_range']
        congr 1
        omega
      · intro x hx
        rcases List.mem_append.mp hx with hx | hx
        · rcases hproc x hx with h | h
          · left
            rw [hnext]
            omega
          · rcases hcover x h with h2 | h2
            · exact Or.inr h2
            · exact Or.inl h2
        · simp only [List.mem_singleton] at hx
          subst hx
          left
          rw [hnext, heq]
          omega
      · intro x hx
        exact List.mem_append_left _ (hbufproc x (hsub x hx))
      · intro x hx
        rw [hnext] at hx
        by_cases hxs : x < ch.nextExpectedSequence
        · exact List.mem_append_left _ (hdelproc x hxs)
        · by_cases hxe : x = s
          · subst hxe
            exact List.mem_append_right _ (List.mem_singleton_self _)
          · have hxin : x ∈ List.range' (ch.nextExpectedSequence + 1) k := by
              rw [List.mem_range'_1]
              omega
            rw [← hds] at hxin
            exact List.mem_append_left _ (hbufproc x (hdrained x hxin))

/-- Running a list of arrivals preserves the channel invariant. -/
theorem runChannelFrom_inv :
    ∀ (arrivals processed : List Nat) (ch : SeqChannel) (delivered : List Nat),
      ChannelInv processed ch delivered →
      ChannelInv (processed ++ arrivals) (runChannelFrom ch delivered arrivals).1
        (runChannelFrom ch delivered arrivals).2 := by
  intro arrivals
  induction arrivals with
  | nil => intro processed ch delivered h; simpa [runChannelFrom] using h
  | cons s rest ih =>
    intro processed ch delivered h
    have hstep := processMessage_inv processed ch delivered s h
    have := ih (processed ++ [s]) (processMessage ch s).1
      (delivered ++ (processMessage ch s).2) hstep
    simpa [runChannelFrom, List.append_assoc] using this

/-- C3: over any arrival order, a sequence channel delivers exactly the
consecutive run 0,1,...,next-1 to the application - strictly increasing,
gapless and duplicate-free (numbers below the expected one are discarded
as duplicates, numbers above it are held) - and when the arrivals cover
every number below n and nothing else, the channel delivers all of
0,...,n-1 in order. -/
theorem sequenceChannel_in_order (arrivals : List Nat) :
    (runChannel arrivals).2 =
        List.range (runChannel arrivals).1.nextExpectedSequence ∧
      ∀ n, (∀ k, k < n → k ∈ arrivals) → (∀ s ∈ arrivals, s < n) →
        (runChannel arrivals).2 = List.range n := by
  have hbase : ChannelInv [] ⟨0, []⟩ [] := by
    refine ⟨by simp, by simp, by simp, by simp, ?_⟩
    intro s hs
    exact absurd hs (by simp)
  have hinv := runChannelFrom_inv arrivals [] ⟨0, []⟩ [] hbase
  simp only [List.nil_append] at hinv
  obtain ⟨hdel, hnotbuf, hproc, hbufproc, hdelproc⟩ := hinv
  simp only [runChannel]
  refine ⟨hdel, ?_⟩
  intro n hall hbound
  have hge : n ≤ (runChannelFrom ⟨0, []⟩ [] arrivals).1.nextExpectedSequence := by
    by_contra hcon
    push_neg at hcon
    have hmem := hall _ hcon
    rcases hproc _ hmem with h | h
    · omega
    · exact hnotbuf h
  have hle : (runChannelFrom ⟨0, []⟩ [] arrivals).1.nextExpectedSequence ≤ n := by
    by_contra hcon
    push_neg at hcon
    have hmem := hdelproc n hcon
    exact absurd (hbound n hmem) (by omega)
  have hn : (runChannelFrom ⟨0, []⟩ [] arrivals).1.nextExpectedSequence = n := by omega
  rw [hdel, hn]

/-- C3 witness: the arrival order 2,0,1,1,4,3 (out of order, with a
duplicate) covers 0..4 and is delivered to the application exactly as
0,1,2,3,4. -/
theorem sequenceChannel_in_order_witness :
    (∀ k, k < 5 → k ∈ [2, 0, 1, 1, 4, 3]) ∧
      (∀ s ∈ [2, 0, 1, 1, 4, 3], s < 5) ∧
      (runChannel [2, 0, 1, 1, 4, 3]).2 = List.range 5 :=
  ⟨by decide, by decide,
   (sequenceChannel_in_order [2, 0, 1, 1, 4, 3]).2 5 (by decide) (by decide)⟩

/-! ## Connection reliable-delivery protocol

NetConnection.hpp declares the reliable machinery (the unsent and
unconfirmed reliable queues, the 256-entry tracker ring, Send,
FlushMessages, OnAckConfirmed, CreateTrackerForAck); the NetConnection.cpp
under src is an earlier revision that predates the reliable path, so the
operational definitions below are modelled from the design document and
say so individually. PacketTracker and its AddReliableID/Clear are the
real inline source from NetConnection.hpp above. -/

/-- A message as the connection sees it: an application identity, the
reliable flag, and the reliable ID the sending connection assigns. -/
structure NetMessageM where
  tag : Nat
  reliable : Bool
  reliableID : Nat
deriving DecidableEq

/-- The tracker ring slot for an ack: ack mod 256 (MAX_UNACKED_HISTORY). -/
def slotOf (ack : Nat) : Fin 256 :=
  ⟨ack % 256, Nat.mod_lt _ (by norm_num)⟩

/-- The connection state the reliable protocol manipulates: the three
outbound queues, the next reliable ID and ack counters, the tracker
ring, and a ledger of messages that have been freed (destroyed). -/
structure ConnState where
  outboundUnreliables : List NetMessageM
  unsentReliables : List NetMessageM
  unconfirmedReliables : List NetMessageM
  nextReliableIDToSend : Nat
  nextAckToSend : Nat
  packetTrackers : Fin 256 → PacketTracker
  destroyed : List NetMessageM

/-- Modelled from the spec: NetConnection.Send of the reliable protocol
(the implementation matching NetConnection.hpp is not under src).
Unreliable messages go to the unreliable FIFO; reliable messages are
assigned the next monotonic reliable ID (a 16-bit counter) and appended
to the unsent-reliable FIFO. -/
def ConnState.send (st : ConnState) (msg : NetMessageM) : ConnState :=
  if msg.reliable then
    { st with
      unsentReliables :=
        st.unsentReliables ++ [{ msg with reliableID := st.nextReliableIDToSend }],
      nextReliableIDToSend := (st.nextReliableIDToSend + 1) % 65536 }
  else
    { st with outboundUnreliables := st.outboundUnreliables ++ [msg] }

/-- Modelled from the spec: NetConnection.CreateTrackerForAck (declared
at NetConnection.hpp line 126, implementation not under src) installs a
new active tracker at slot ack mod 256, overwriting any stale entry; the
reliable ids the packet carries are recorded through AddReliableID. -/
def ConnState.createTrackerForAck (st : ConnState) (ack : Nat) (ids : List Nat) :
    ConnState :=
  { st with
    packetTrackers := Function.update st.packetTrackers (slotOf ack)
      (PacketTracker.addAll
        { packetAck := ack, timeSent := 0, sentReliableIDs := [] } ids).1 }

/-- The messages the next FlushMessages will carry out of the reliable
queues: every not-yet-confirmed reliable followed by every newly queued
unsent reliable. -/
def ConnState.retrySet (st : ConnState) : List NetMessageM :=
  st.unconfirmedReliables ++ st.unsentReliables

/-- Modelled from the spec: NetConnection.FlushMessages of the reliable
protocol (the implementation matching NetConnection.hpp is not under
src). One successful flush sends the combined unreliable +
not-yet-confirmed-reliable + newly-unsent-reliable queues, creates a
tracker for the packet ack recording the carried reliable ids, frees the
unreliable messages, moves all sent reliables into the
unconfirmed-reliable set (not freed), and advances the 16-bit ack
counter. -/
def ConnState.flush (st : ConnState) : ConnState :=
  let retry := st.retrySet
  let tracked := st.createTrackerForAck st.nextAckToSend (retry.map (·.reliableID))
  { tracked with
    outboundUnreliables := [],
    unsentReliables := [],
    unconfirmedReliables := retry,
    destroyed := st.destroyed ++ st.outboundUnreliables,
    nextAckToSend := (st.nextAckToSend + 1) % 65536 }

/-- Iterate FlushMessages. -/
def ConnState.flushN : Nat → ConnState → ConnState
  | 0, st => st
  | n + 1, st => ConnState.flushN n st.flush

/-- Modelled from the spec: NetConnection.GetTrackerForAck (declared at
NetConnection.hpp line 127, implementation not under src) yields the
tracker at slot ack mod 256 only when it is still tracking that ack. -/
def ConnState.getTrackerForAck (st : ConnState) (ack : Nat) : Option PacketTracker :=
  if (st.packetTrackers (slotOf ack)).packetAck = ack then
    some (st.packetTrackers (slotOf ack))
  else
    none

/-- Modelled from the spec: NetConnection.OnAckConfirmed (declared at
NetConnection.hpp line 124, implementation not under src) looks up the
tracker for the ack; when one is active it removes every reliable ID the
tracker carried from the unconfirmed-reliable set (freeing those
messages) and clears the slot with PacketTracker_t.Clear; when none is
active it does nothing. -/
def ConnState.onAckConfirmed (st : ConnState) (ack : Nat) : ConnState :=
  match st.getTrackerForAck ack with
  | none => st
  | some t =>
    { st with
      unconfirmedReliables := st.unconfirmedReliables.filter
        (fun m => decide (m.reliableID ∉ t.sentReliableIDs)),
      destroyed := st.destroyed ++ st.unconfirmedReliables.filter
        (fun m => decide (m.reliableID ∈ t.sentReliableIDs)),
      packetTrackers := Function.update st.packetTrackers (slotOf ack)
        ((st.packetTrackers (slotOf ack)).clear) }

/-- AddReliableID never touches the tracked ack. -/
theorem PacketTracker.addAll_packetAck (ids : List Nat) :
    ∀ t : PacketTracker, (t.addAll ids).1.packetAck = t.packetAck := by
  induction ids with
  | nil => intro t; rfl
  | cons id rest ih =>
    intro t
    rw [PacketTracker.addAll]
    unfold PacketTracker.addReliableID
    by_cases h : t.sentReliableIDs.length = MAX_RELIABLES_PER_PACKET <;>
      simp [h, ih]

/-- C1: Send routes an unreliable message to the unreliable FIFO, where
the next flush frees it; Send assigns a reliable message the next
monotonic reliable ID and appends it to the unsent-reliable FIFO, where
a successful flush moves it into the unconfirmed-reliable set; and a
flush keeps every reliable (unconfirmed plus unsent) alive in the
unconfirmed set while freeing exactly the unreliable FIFO. -/
theorem send_flush_lifecycle (st : ConnState) (msg : NetMessageM) :
    (msg.reliable = false →
      st.send msg =
          { st with outboundUnreliables := st.outboundUnreliables ++ [msg] } ∧
        msg ∈ ((st.send msg).flush).destroyed) ∧
    (msg.reliable = true →
      st.send msg =
          { st with
            unsentReliables :=
              st.unsentReliables ++ [{ msg with reliableID := st.nextReliableIDToSend }],
            nextReliableIDToSend := (st.nextReliableIDToSend + 1) % 65536 } ∧
        { msg with reliableID := st.nextReliableIDToSend } ∈
          ((st.send msg).flush).unconfirmedReliables ∧
        ({ msg with reliableID := st.nextReliableIDToSend } ∉ st.destroyed →
          (∀ m ∈ st.outboundUnreliables, m.reliable = false) →
          { msg with reliableID := st.nextReliableIDToSend } ∉
            ((st.send msg).flush).destroyed)) ∧
    ((st.flush).unconfirmedReliables = st.unconfirmedReliables ++ st.unsentReliables ∧
      (st.flush).destroyed = st.destroyed ++ st.outboundUnreliables) := by
  refine ⟨?_, ?_, by simp [ConnState.flush, ConnState.retrySet, ConnState.createTrackerForAck]⟩
  · intro hrel
    have hsend : st.send msg =
        { st with outboundUnreliables := st.outboundUnreliables ++ [msg] } := by
      simp [ConnState.send, hrel]
    refine ⟨hsend, ?_⟩
    rw [hsend]
    simp [ConnState.flush, ConnState.retrySet, ConnState.createTrackerForAck]
  · intro hrel
    have hsend : st.send msg =
        { st with
          unsentReliables :=
            st.unsentReliables ++ [{ msg with reliableID := st.nextReliableIDToSend }],
          nextReliableIDToSend := (st.nextReliableIDToSend + 1) % 65536 } := by
      simp [ConnState.send, hrel]
    refine ⟨hsend, ?_, ?_⟩
    · rw [hsend]
      simp [ConnState.flush, ConnState.retrySet, ConnState.createTrackerForAck]
    · intro hnotdest hunrel
      rw [hsend]
      simp only [ConnState.flush, ConnState.retrySet, ConnState.createTrackerForAck,
        List.mem_append]
      intro hcon
      rcases hcon with h | h
      · exact hnotdest h
      · have := hunrel _ h
        simp [hrel] at this

/-- C1 witness: an unreliable message is freed by the flush after its
send; a reliable message receives reliable ID 0 and survives the flush
in the unconfirmed set, unfreed. -/
theorem send_flush_lifecycle_witness :
    ((⟨[], [], [], 0, 0, fun _ => { }, []⟩ : ConnState).send
        ⟨1, false, 0⟩ |>.flush).destroyed = [⟨1, false, 0⟩] ∧
      (⟨1, false, 0⟩ : NetMessageM) ∈
        ((⟨[], [], [], 0, 0, fun _ => { }, []⟩ : ConnState).send
          ⟨1, false, 0⟩ |>.flush).destroyed ∧
      (⟨2, true, 99⟩ : NetMessageM).reliable = true ∧
      ({ (⟨2, true, 99⟩ : NetMessageM) with reliableID := 0 }) ∈
        ((⟨[], [], [], 0, 0, fun _ => { }, []⟩ : ConnState).send
          ⟨2, true, 99⟩ |>.flush).unconfirmedReliables :=
  ⟨by decide,
   ((send_flush_lifecycle ⟨[], [], [], 0, 0, fun _ => { }, []⟩ ⟨1, false, 0⟩).1
      (by decide)).2,
   by decide,
   (((send_flush_lifecycle ⟨[], [], [], 0, 0, fun _ => { }, []⟩ ⟨2, true, 99⟩).2.1
      (by decide)).2).1⟩

/-- Flushing keeps an unconfirmed reliable message in the unconfirmed
set (it is re-sent, never dropped). -/
theorem flush_keeps_unconfirmed (st : ConnState) (msg : NetMessageM)
    (hmem : msg ∈ st.unconfirmedReliables) :
    msg ∈ (st.flush).unconfirmedReliables := by
  simp only [ConnState.flush, ConnState.retrySet, ConnState.createTrackerForAck]
  exact List.mem_append_left _ hmem

/-- C2: an unconfirmed reliable message is in the retry set of the next
flush and of every later flush, however many further sends happen; each
flush overwrites the slot at (its ack mod 256) with a tracker for that
ack while advancing the 16-bit ack counter; and once the slot at
ack mod 256 no longer holds the original ack (overwritten after 256
further sends), OnAckConfirmed for that ack finds no tracker and changes
nothing, so the message stays queued for retransmission - it is never
dropped without a tracked retry. -/
theorem reliable_retry_on_overwrite (st : ConnState) (msg : NetMessageM) (ack : Nat)
    (hmem : msg ∈ st.unconfirmedReliables) :
    msg ∈ st.retrySet ∧
    (∀ n, msg ∈ (ConnState.flushN n st).unconfirmedReliables ∧
      msg ∈ (ConnState.flushN n st).retrySet) ∧
    (∀ st' : ConnState,
      ((st'.flush).packetTrackers (slotOf st'.nextAckToSend)).packetAck =
          st'.nextAckToSend ∧
        (st'.flush).nextAckToSend = (st'.nextAckToSend + 1) % 65536) ∧
    (∀ st' : ConnState, (st'.packetTrackers (slotOf ack)).packetAck ≠ ack →
      st'.onAckConfirmed ack = st') := by
  refine ⟨List.mem_append_left _ hmem, ?_, ?_, ?_⟩
  · intro n
    induction n generalizing st with
    | zero =>
      exact ⟨hmem, List.mem_append_left _ hmem⟩
    | succ n ih =>
      exact ih st.flush (flush_keeps_unconfirmed st msg hmem)
  · intro st'
    constructor
    · simp [ConnState.flush, ConnState.createTrackerForAck,
        PacketTracker.addAll_packetAck]
    · simp [ConnState.flush, ConnState.createTrackerForAck]
  · intro st' hne
    simp [ConnState.onAckConfirmed, ConnState.getTrackerForAck, hne]

/-- A concrete connection for the C2 scenario: reliable ID 5 was sent in
packet ack 10 (tracker installed at slot 10), the ack never arrived, and
the message sits in the unconfirmed set with the ack counter at 11. -/
def lostAckConn : ConnState :=
  ⟨[], [], [⟨7, true, 5⟩], 6, 11,
    Function.update (fun _ => { }) (slotOf 10)
      { packetAck := 10, timeSent := 0, sentReliableIDs := [5] }, []⟩

/-- C2 witness: in the scenario state the message is unconfirmed, and
after 256 further flushes it is still in the retry set of the next
flush. -/
theorem reliable_retry_on_overwrite_witness :
    (⟨7, true, 5⟩ : NetMessageM) ∈ lostAckConn.unconfirmedReliables ∧
      (⟨7, true, 5⟩ : NetMessageM) ∈ (ConnState.flushN 256 lostAckConn).retrySet :=
  ⟨by decide,
   ((reliable_retry_on_overwrite lostAckConn ⟨7, true, 5⟩ 10 (by decide)).2.1 256).2⟩

/-- C6: confirming the same ack twice is harmless. The first
OnAckConfirmed clears the tracker slot (PacketTracker_t.Clear resets its
ack to the invalid sentinel), so the second call finds no active tracker
for the ack and returns the state unchanged - no reliable message is
confirmed or freed twice. -/
theorem onAckConfirmed_idempotent (st : ConnState) (ack : Nat)
    (hack : ack ≠ INVALID_PACKET_ACK) :
    (st.onAckConfirmed ack).getTrackerForAck ack = none ∧
      (st.onAckConfirmed ack).onAckConfirmed ack = st.onAckConfirmed ack := by
  rcases h : st.getTrackerForAck ack with _ | t
  · have h1 : st.onAckConfirmed ack = st := by
      simp [ConnState.onAckConfirmed, h]
    rw [h1]
    exact ⟨h, by simp [ConnState.onAckConfirmed, h]⟩
  · have h2 : (st.onAckConfirmed ack).getTrackerForAck ack = none := by
      simp only [ConnState.onAckConfirmed, h]
      simp only [ConnState.getTrackerForAck]
      rw [Function.update_same]
      simp only [PacketTracker.clear, INVALID_PACKET_ACK] at hack ⊢
      simp [Ne.symm hack]
    refine ⟨h2, ?_⟩
    generalize hst1 : st.onAckConfirmed ack = st1 at h2
    simp [ConnState.onAckConfirmed, h2]

/-- C6 witness: on the scenario connection, confirming ack 10 a second
time finds no tracker and leaves the state exactly as after the first
confirmation. -/
theorem onAckConfirmed_idempotent_witness :
    (10 : Nat) ≠ INVALID_PACKET_ACK ∧
      (lostAckConn.onAckConfirmed 10).onAckConfirmed 10 =
        lostAckConn.onAckConfirmed 10 :=
  ⟨by decide, (onAckConfirmed_idempotent lostAckConn 10 (by decide)).2⟩

end EngineNet
